import Mathlib

/-!
Shallow embedding of the meal planner's calendar ingestion core:
timezone utilities (`timezone-utils.ts`), the calendar source registry
(`calendar-settings`), and the ICS event fetch/cache/aggregation pipeline
(`calendar-events`).  Instants are modelled as `Int` milliseconds since the
Unix epoch; the host system clock zone is modelled as UTC, so the JS local
date getters coincide with the UTC field getters.  Remote HTTP fetching and
ICS parsing are modelled by a `World` function giving each URL's outcome,
and the recurrence iterator of `ical.js` by a sequence of occurrence
starts.  Mutable module state (the event cache, the registry list) is
threaded explicitly.
-/

def MS_PER_DAY : Int := 86400000

def MS_PER_HOUR : Int := 3600000

/-- Day number of an instant (floor division by the day length, as JS date
arithmetic behaves for negative epoch values). -/
def dayIndex (t : Int) : Int := t / MS_PER_DAY

/-- Model of `setHours(0,0,0,0)` on a date holding instant `t`, with the
system zone modelled as UTC. -/
def floorDay (t : Int) : Int := t - t % MS_PER_DAY

/-- Model of `getHours()` under a UTC system zone. -/
def jsGetHours (t : Int) : Int := (t / MS_PER_HOUR) % 24

/-- Gregorian calendar fields (year, month 1..12, day 1..31) of a day
number, by the standard era-based civil-from-days algorithm that JS date
getters implement. -/
def civilFromDays (z : Int) : Int × Int × Int :=
  let z' := z + 719468
  let era := Int.ediv z' 146097
  let doe := z' - era * 146097
  let yoe := Int.ediv (doe - Int.ediv doe 1460 + Int.ediv doe 36524 - Int.ediv doe 146096) 365
  let y := yoe + era * 400
  let doy := doe - (365 * yoe + Int.ediv yoe 4 - Int.ediv yoe 100)
  let mp := Int.ediv (5 * doy + 2) 153
  let d := doy - Int.ediv (153 * mp + 2) 5 + 1
  let m := mp + (if mp < 10 then 3 else -9)
  (y + (if m ≤ 2 then 1 else 0), m, d)

/-- Day number of Gregorian calendar fields (year, month 1..12, day),
inverse era-based algorithm, as the JS `Date` field constructor uses. -/
def daysFromCivil (y m d : Int) : Int :=
  let y' := y - (if m ≤ 2 then 1 else 0)
  let era := Int.ediv y' 400
  let yoe := y' - era * 400
  let mp := m + (if 2 < m then -3 else 9)
  let doy := Int.ediv (153 * mp + 2) 5 + d - 1
  let doe := yoe * 365 + Int.ediv yoe 4 - Int.ediv yoe 100 + doy
  era * 146097 + doe - 719468

/-- Model of `getFullYear()` under a UTC system zone. -/
def jsGetFullYear (t : Int) : Int := (civilFromDays (dayIndex t)).1

/-- Model of `getMonth()` (0-based) under a UTC system zone. -/
def jsGetMonth (t : Int) : Int := (civilFromDays (dayIndex t)).2.1 - 1

/-- Model of `getDate()` (day of month) under a UTC system zone. -/
def jsGetDate (t : Int) : Int := (civilFromDays (dayIndex t)).2.2

/-- Model of `new Date(year, month0, day)` under a UTC system zone. -/
def jsMakeDate (y m0 d : Int) : Int := daysFromCivil y (m0 + 1) d * MS_PER_DAY

/-- Modelled from the spec: an IANA zone is represented by its UTC-offset
history, a base offset plus a list of (transition instant, new offset)
pairs in ascending order of instant; `date-fns-tz` itself is an external
library not present in the repository sources. -/
structure Tz where
  base : Int
  transitions : List (Int × Int)

/-- Modelled from the spec: the zone's UTC offset (milliseconds) in effect
at a UTC instant, the last transition at or before the instant. -/
def Tz.offset (z : Tz) (t : Int) : Int :=
  z.transitions.foldl (fun acc tr => if tr.1 ≤ t then tr.2 else acc) z.base

/-- All offset values a zone can ever take. -/
def Tz.offsets (z : Tz) : List Int :=
  z.base :: z.transitions.map (fun tr => tr.2)

/-- Model of `toZonedTime` / `toTimeZone(date, timeZone)`: shift the
instant by the zone offset so that UTC field getters read the target
zone's wall clock (spec 4.1 `toZone`). -/
def toTimeZone (date : Int) (timeZone : Tz) : Int := date + timeZone.offset date

/-- Modelled from the spec: `fromZone` interprets wall-clock fields as
local time in the zone and returns the UTC instant; at a DST fold the
earlier instant is preferred, and at a gap a single-pass offset guess is
used (a fixed, deterministic policy). -/
def Tz.fromLocal (z : Tz) (w : Int) : Int :=
  let cands := z.offsets.filterMap (fun o =>
    if z.offset (w - o) = o then some (w - o) else none)
  match cands with
  | [] => w - z.offset w
  | u :: us => us.foldl (fun a b => if b < a then b else a) u

/-- Model of `fromZonedTime` / `fromTimeZone(date, timeZone)` (spec 4.1
`fromZone`). -/
def fromTimeZone (date : Int) (timeZone : Tz) : Int := timeZone.fromLocal date

/-- Model of `getDayBoundsInTimezone`: read the zoned calendar fields,
build local midnight and local 23:59:59.999 of that day, convert both
back to UTC instants. -/
def getDayBoundsInTimezone (date : Int) (timeZone : Tz) : Int × Int :=
  let zonedDate := toTimeZone date timeZone
  let year := jsGetFullYear zonedDate
  let month := jsGetMonth zonedDate
  let day := jsGetDate zonedDate
  let startOfDayLocal := jsMakeDate year month day
  let startOfDay := fromTimeZone startOfDayLocal timeZone
  let endOfDayLocal := startOfDayLocal + (MS_PER_DAY - 1)
  let endOfDay := fromTimeZone endOfDayLocal timeZone
  (startOfDay, endOfDay)

/-- Ambient configuration: the resolved user zone (`getUserTimezone`) and
the configured event filter hour (`getEventFilterHour`), both read from
the environment in the source. -/
structure Config where
  userTz : Tz
  filterHour : Option Int

def getEventFilterHour (cfg : Config) : Option Int := cfg.filterHour

def getUserTimezone (cfg : Config) : Tz := cfg.userTz

/-- Output entity of the aggregation pipeline (`CalendarEvent`).  The ICS
`end` field is named `end_` because `end` is reserved in Lean. -/
structure CalendarEvent where
  id : String
  title : String
  start : Int
  end_ : Int
  allDay : Bool
  source : String
  color : String
deriving Repr, DecidableEq

/-- Model of `shouldShowEvent` from `timezone-utils.ts`. -/
def shouldShowEvent (cfg : Config) (event : CalendarEvent) : Bool :=
  match getEventFilterHour cfg with
  | none => true
  | some filterHour =>
    if event.allDay then true
    else
      let eventStartInUserTz := toTimeZone event.start (getUserTimezone cfg)
      let eventHour := jsGetHours eventStartInUserTz
      decide (filterHour ≤ eventHour)

/-- A configured calendar source (`CalendarSource` in `calendar-settings`). -/
structure CalendarSource where
  id : String
  name : String
  url : String
  color : String
  enabled : Bool
deriving Repr, DecidableEq

/-- A `Partial<CalendarSource>` argument to `updateCalendarSource`: each
field is present or absent. -/
structure SourcePatch where
  id : Option String := none
  name : Option String := none
  url : Option String := none
  color : Option String := none
  enabled : Option Bool := none

/-- Model of the object spread `{ ...old, ...updates }`: fields present in
the patch override the old value. -/
def applyPatch (s : CalendarSource) (p : SourcePatch) : CalendarSource :=
  { id := p.id.getD s.id
    name := p.name.getD s.name
    url := p.url.getD s.url
    color := p.color.getD s.color
    enabled := p.enabled.getD s.enabled }

/-- Model of `getCalendarSources`: only the enabled sources. -/
def getCalendarSources (sources : List CalendarSource) : List CalendarSource :=
  sources.filter (fun s => s.enabled)

/-- The `Omit<CalendarSource, 'id'>` argument of `addCalendarSource`. -/
structure SourceInput where
  name : String
  url : String
  color : String
  enabled : Bool

/-- Model of `addCalendarSource`: appends a source with a time-based id. -/
def addCalendarSource (now : Int) (sources : List CalendarSource)
    (input : SourceInput) : List CalendarSource :=
  sources ++ [{ id := "calendar-" ++ toString now, name := input.name,
                url := input.url, color := input.color, enabled := input.enabled }]

/-- Model of `removeCalendarSource`. -/
def removeCalendarSource (sources : List CalendarSource) (id : String) :
    List CalendarSource :=
  sources.filter (fun s => s.id ≠ id)

/-- Model of `updateCalendarSource`: `findIndex` on the id, then replace
the first matching entry by the spread merge; no-op when absent. -/
def updateCalendarSource (id : String) (p : SourcePatch) :
    List CalendarSource → List CalendarSource
  | [] => []
  | s :: rest =>
    if s.id = id then applyPatch s p :: rest
    else s :: updateCalendarSource id p rest

/-- A parsed VEVENT as the pipeline consumes it: UID, SUMMARY, DTSTART and
DTEND instants, the DATE-kind flag of DTSTART, and, when recurring, the
`ical.js` occurrence iterator modelled as the sequence of occurrence
starts it yields (`none` when exhausted). -/
structure VEvent where
  uid : String
  summary : Option String
  dtstart : Int
  dtend : Int
  isDate : Bool
  rrule : Option (Nat → Option Int)

/-- Outcome of fetching and parsing one source URL: the failure modes the
code turns into thrown errors, or the list of VEVENT components. -/
inductive FetchOutcome where
  | httpError (status : Nat) (statusText : String)
  | timeout
  | emptyBody
  | parseFailure (msg : String)
  | ok (vevents : List VEvent)

def FetchOutcome.isOk : FetchOutcome → Bool
  | .ok _ => true
  | _ => false

/-- The remote world: what fetching each URL yields. -/
abbrev World := String → FetchOutcome

/-- Model of `event.summary || 'Untitled Event'` (empty strings are falsy
in JS). -/
def eventTitle (v : VEvent) : String :=
  match v.summary with
  | none => "Untitled Event"
  | some s => if s = "" then "Untitled Event" else s

/-- The `CalendarEvent` pushed for one expanded recurrence occurrence. -/
def mkOccurrenceEvent (src : CalendarSource) (v : VEvent)
    (occStart occEnd : Int) : CalendarEvent :=
  { id := src.id ++ "-" ++ v.uid ++ "-" ++ toString occStart
    title := eventTitle v
    start := occStart
    end_ := occEnd
    allDay := v.isDate
    source := src.name
    color := src.color }

/-- The `CalendarEvent` pushed for a non-recurring VEVENT. -/
def mkSingleEvent (src : CalendarSource) (v : VEvent) : CalendarEvent :=
  { id := src.id ++ "-" ++ v.uid
    title := eventTitle v
    start := v.dtstart
    end_ := v.dtend
    allDay := v.isDate
    source := src.name
    color := src.color }

/-- The recurrence expansion loop of `fetchEventsFromSource`, at loop
counter `k`: runs while the iterator yields an occurrence and fewer than
100 occurrences have been enumerated; keeps an occurrence intersecting
[startDate, endDate], and breaks early once an occurrence start passes
`endDate`. -/
def expandGo (src : CalendarSource) (v : VEvent) (seq : Nat → Option Int)
    (startDate endDate : Int) (k : Nat) : List CalendarEvent :=
  if _h : k < 100 then
    match seq k with
    | none => []
    | some occStart =>
      let duration := v.dtend - v.dtstart
      let actualEnd := occStart + duration
      if occStart ≤ endDate ∧ startDate ≤ actualEnd then
        mkOccurrenceEvent src v occStart actualEnd ::
          expandGo src v seq startDate endDate (k + 1)
      else if endDate < occStart then []
      else expandGo src v seq startDate endDate (k + 1)
  else []
termination_by 100 - k
decreasing_by all_goals omega

/-- Expansion of one recurring VEVENT over a query window. -/
def expandRecurring (src : CalendarSource) (v : VEvent) (seq : Nat → Option Int)
    (startDate endDate : Int) : List CalendarEvent :=
  expandGo src v seq startDate endDate 0

/-- Per-VEVENT processing in `fetchEventsFromSource`: expand recurring
events, and keep a non-recurring event exactly when it intersects the
window. -/
def processVEvent (src : CalendarSource) (startDate endDate : Int)
    (v : VEvent) : List CalendarEvent :=
  match v.rrule with
  | some seq => expandRecurring src v seq startDate endDate
  | none =>
    if v.dtstart ≤ endDate ∧ startDate ≤ v.dtend then [mkSingleEvent src v]
    else []

/-- The event list a successfully fetched and parsed source produces. -/
def processVEvents (src : CalendarSource) (ves : List VEvent)
    (startDate endDate : Int) : List CalendarEvent :=
  ves.flatMap (fun v => processVEvent src startDate endDate v)

def CACHE_DURATION : Int := 15 * 60 * 1000

/-- The module-level `eventCache` map, keyed by strings. -/
abbrev Cache := String → Option (List CalendarEvent × Int)

def emptyCache : Cache := fun _ => none

def setCache (c : Cache) (k : String) (entry : List CalendarEvent × Int) : Cache :=
  fun x => if x = k then some entry else c x

/-- Model of `clearEventCache`: empties the whole store. -/
def clearEventCache (_c : Cache) : Cache := fun _ => none

/-- The cache key of `fetchEventsFromSource` (source id plus the rendered
window endpoints). -/
def cacheKey (src : CalendarSource) (startDate endDate : Int) : String :=
  src.id ++ "-" ++ toString startDate ++ "-" ++ toString endDate

/-- The cache-hit test of `fetchEventsFromSource`: an entry whose age is
below the TTL, giving the cached events. -/
def effHit (c : Cache) (now : Int) (k : String) : Option (List CalendarEvent) :=
  match c k with
  | none => none
  | some entry => if now - entry.2 < CACHE_DURATION then some entry.1 else none

/-- The fetch-and-parse path of `fetchEventsFromSource` after a cache
miss: each failure mode becomes a thrown error (modelled as `Except.error`)
leaving the cache untouched; success processes the VEVENTs and writes the
cache entry. -/
def fetchFresh (world : World) (now : Int) (src : CalendarSource)
    (startDate endDate : Int) (cache : Cache) :
    Except String (List CalendarEvent) × Cache :=
  match world src.url with
  | .httpError status statusText =>
    (.error ("HTTP " ++ toString status ++ ": " ++ statusText), cache)
  | .timeout => (.error "This operation was aborted", cache)
  | .emptyBody => (.error "Empty ICS data received", cache)
  | .parseFailure msg => (.error ("Failed to parse ICS data: " ++ msg), cache)
  | .ok vevents =>
    let events := processVEvents src vevents startDate endDate
    (.ok events, setCache cache (cacheKey src startDate endDate) (events, now))

/-- Model of `fetchEventsFromSource`: serve a fresh cache entry, else
fetch. -/
def fetchEventsFromSource (world : World) (now : Int) (src : CalendarSource)
    (startDate endDate : Int) (cache : Cache) :
    Except String (List CalendarEvent) × Cache :=
  match effHit cache now (cacheKey src startDate endDate) with
  | some events => (.ok events, cache)
  | none => fetchFresh world now src startDate endDate cache

/-- The per-source loop of `fetchCalendarEvents`: a failing source is
caught and skipped, a succeeding one appends its events; the cache is
threaded through. -/
def fetchLoop (world : World) (now startDate endDate : Int) :
    List CalendarSource → Cache → List CalendarEvent × Cache
  | [], cache => ([], cache)
  | src :: rest, cache =>
    match fetchEventsFromSource world now src startDate endDate cache with
    | (.ok events, cache') =>
      let r := fetchLoop world now startDate endDate rest cache'
      (events ++ r.1, r.2)
    | (.error _, cache') => fetchLoop world now startDate endDate rest cache'

/-- Comparator key order used by the final `sort`. -/
def eventLe (a b : CalendarEvent) : Prop := a.start ≤ b.start

instance : DecidableRel eventLe := fun a b => Int.decLe a.start b.start

instance : IsTotal CalendarEvent eventLe := ⟨fun a b => Int.le_total a.start b.start⟩

instance : IsTrans CalendarEvent eventLe := ⟨fun _ _ _ h1 h2 => le_trans h1 h2⟩

/-- The stable sort by start instant at the end of `fetchCalendarEvents`. -/
def sortEvents (l : List CalendarEvent) : List CalendarEvent :=
  List.insertionSort eventLe l

/-- Model of `fetchCalendarEvents`: enabled sources, per-source fetch with
failure isolation, visibility filter, sort by start. -/
def fetchCalendarEvents (cfg : Config) (world : World) (now : Int)
    (registry : List CalendarSource) (startDate endDate : Int)
    (cache : Cache) : List CalendarEvent × Cache :=
  let sources := getCalendarSources registry
  if sources.isEmpty then ([], cache)
  else
    let r := fetchLoop world now startDate endDate sources cache
    let filteredEvents := r.1.filter (fun e => shouldShowEvent cfg e)
    (sortEvents filteredEvents, r.2)

/-- The secondary day filter of `getEventsForDate`: all-day events are
compared through midnight/noon anchors in the system zone, timed events by
equality of the zoned calendar fields. -/
def matchesDay (z : Tz) (date : Int) (event : CalendarEvent) : Bool :=
  if event.allDay then
    let eventStart := floorDay event.start
    let eventEnd := floorDay event.end_ + (MS_PER_DAY - 1)
    let targetDate := floorDay date + 43200000
    decide (eventStart ≤ targetDate ∧ targetDate ≤ eventEnd)
  else
    let eventInUserTz := toTimeZone event.start z
    let targetInUserTz := toTimeZone date z
    decide (jsGetDate eventInUserTz = jsGetDate targetInUserTz ∧
            jsGetMonth eventInUserTz = jsGetMonth targetInUserTz ∧
            jsGetFullYear eventInUserTz = jsGetFullYear targetInUserTz)

/-- Model of `getEventsForDate`: fetch over the zone's day bounds, then
keep the events matching that day. -/
def getEventsForDate (cfg : Config) (world : World) (now : Int)
    (registry : List CalendarSource) (date : Int) (cache : Cache) :
    List CalendarEvent × Cache :=
  let userTimezone := getUserTimezone cfg
  let bounds := getDayBoundsInTimezone date userTimezone
  let r := fetchCalendarEvents cfg world now registry bounds.1 bounds.2 cache
  (r.1.filter (fun e => matchesDay userTimezone date e), r.2)

/-- Modelled from the spec: the claim's all-day matching rule, membership
of the target date in the event's half-open [start, end) local-day range
(spec 4.5 `getEventsForDate`). -/
def specAllDayMatch (z : Tz) (date : Int) (event : CalendarEvent) : Bool :=
  decide (dayIndex (toTimeZone event.start z) ≤ dayIndex (toTimeZone date z) ∧
          dayIndex (toTimeZone date z) < dayIndex (toTimeZone event.end_ z))

/-- The events one source alone contributes when fetched with no cache:
empty on any failure. -/
def sourceFreshEvents (world : World) (src : CalendarSource)
    (startDate endDate : Int) : List CalendarEvent :=
  match world src.url with
  | .ok vevents => processVEvents src vevents startDate endDate
  | _ => []

/-- Boolean check that the occurrence sequence is strictly increasing on
indices below `n` (the ordering guarantee of the `ical.js` iterator). -/
def strictUpTo (seq : Nat → Option Int) (n : Nat) : Bool :=
  (List.range n).all (fun j => (List.range j).all (fun i =>
    match seq i, seq j with
    | some a, some b => decide (a < b)
    | _, _ => true))

/-- Boolean check that the first `n` occurrences all exist and end before
`rangeStart`. -/
def allEndBeforeWindow (seq : Nat → Option Int) (duration rangeStart : Int)
    (n : Nat) : Bool :=
  (List.range n).all (fun k =>
    match seq k with
    | some occStart => decide (occStart + duration < rangeStart)
    | none => false)

/-- Decimal value of a digit-character list, inverse of `Nat.toDigits`. -/
def decodeDigits (l : List Char) : Nat :=
  l.foldl (fun a c => 10 * a + (c.toNat - 48)) 0

/-! Concrete zones, sources, events and worlds used to instantiate the
theorems below on closed inputs. -/

def utcTz : Tz := { base := 0, transitions := [] }

def dstTz : Tz := { base := 3600000, transitions := [(1000000000, 7200000)] }

def cfgNone : Config := { userTz := utcTz, filterHour := none }

def srcA : CalendarSource :=
  { id := "alpha", name := "Alpha", url := "https://alpha", color := "#111", enabled := true }

def srcB : CalendarSource :=
  { id := "beta", name := "Beta", url := "https://beta", color := "#222", enabled := true }

def vA : VEvent :=
  { uid := "ua", summary := some "Dinner", dtstart := 500, dtend := 600,
    isDate := false, rrule := none }

def worldAB : World := fun url =>
  if url = "https://alpha" then .ok [vA] else .httpError 500 "Internal Server Error"

def srcC : CalendarSource :=
  { id := "gamma", name := "Gamma", url := "https://gamma", color := "#333", enabled := true }

def vC : VEvent :=
  { uid := "uc", summary := some "Lunch", dtstart := 100, dtend := 300,
    isDate := false, rrule := none }

def worldC : World := fun url => if url = "https://gamma" then .ok [vC] else .timeout

def src5 : CalendarSource :=
  { id := "src1", name := "Source One", url := "https://cal", color := "#fff", enabled := true }

def vAllDay : VEvent :=
  { uid := "uid-ad", summary := some "Holiday", dtstart := 0, dtend := 86400000,
    isDate := true, rrule := none }

def world5 : World := fun url => if url = "https://cal" then .ok [vAllDay] else .emptyBody

def src6 : CalendarSource :=
  { id := "s6", name := "Six", url := "https://six", color := "#abc", enabled := true }

def vDup : VEvent :=
  { uid := "u1", summary := some "Chess", dtstart := 100, dtend := 200,
    isDate := false, rrule := none }

def world6 : World := fun url => if url = "https://six" then .ok [vDup, vDup] else .timeout

def seqMono : Nat → Option Int := fun k => if k < 3 then some ((k : Int) * 3600000) else none

def vRec : VEvent :=
  { uid := "ur", summary := some "Standup", dtstart := 0, dtend := 1800000,
    isDate := false, rrule := some seqMono }

def src7 : CalendarSource :=
  { id := "a", name := "A", url := "https://a7", color := "#777", enabled := true }

def patch7 : SourcePatch := { id := some "b" }

def patchName : SourcePatch := { name := some "Renamed" }

def src9 : CalendarSource :=
  { id := "nine", name := "Nine", url := "https://nine", color := "#999", enabled := true }

def v9 : VEvent :=
  { uid := "u9", summary := none, dtstart := 50, dtend := 60, isDate := false, rrule := none }

def world9fail : World := fun _ => .parseFailure "invalid ical body"

def world9ok : World := fun _ => .ok [v9]

def seqStarved : Nat → Option Int := fun k => some ((k : Int) * 100)

def vStarved : VEvent :=
  { uid := "us", summary := none, dtstart := 0, dtend := 0, isDate := false,
    rrule := some seqStarved }

def src10 : CalendarSource :=
  { id := "ten", name := "Ten", url := "https://ten", color := "#aaa", enabled := true }


/-! Helper lemmas: decimal rendering is injective, string appends cancel. -/

theorem toDigitsCore_append (b : Nat) :
    ∀ (fuel n : Nat) (ds : List Char),
    Nat.toDigitsCore b fuel n ds = Nat.toDigitsCore b fuel n [] ++ ds := by
  intro fuel
  induction fuel with
  | zero => intro n ds; simp [Nat.toDigitsCore]
  | succ fuel ih =>
    intro n ds
    simp only [Nat.toDigitsCore]
    by_cases h : n / b = 0
    · simp [h]
    · rw [if_neg h, if_neg h, ih (n / b) (Nat.digitChar (n % b) :: ds),
        ih (n / b) [Nat.digitChar (n % b)], List.append_assoc]
      simp

theorem decodeDigits_append_singleton (l : List Char) (c : Char) :
    decodeDigits (l ++ [c]) = 10 * decodeDigits l + (c.toNat - 48) := by
  simp [decodeDigits, List.foldl_append]

theorem digitChar_toNat (d : Nat) (h : d < 10) : (Nat.digitChar d).toNat = 48 + d := by
  interval_cases d <;> rfl

theorem decode_toDigitsCore :
    ∀ (fuel n : Nat), n < 10 ^ fuel →
    decodeDigits (Nat.toDigitsCore 10 fuel n []) = n := by
  intro fuel
  induction fuel with
  | zero =>
    intro n h
    have hn : n = 0 := by simpa using h
    subst hn
    simp [Nat.toDigitsCore, decodeDigits]
  | succ fuel ih =>
    intro n h
    simp only [Nat.toDigitsCore]
    by_cases h0 : n / 10 = 0
    · rw [if_pos h0]
      simp [decodeDigits, digitChar_toNat (n % 10) (by omega)]
      omega
    · rw [if_neg h0, toDigitsCore_append, decodeDigits_append_singleton,
        ih (n / 10) (by
          have hp : (10:Nat) ^ (fuel+1) = 10 ^ fuel * 10 := pow_succ 10 fuel
          omega),
        digitChar_toNat (n % 10) (by omega)]
      omega

theorem decode_toDigits (n : Nat) : decodeDigits (Nat.toDigits 10 n) = n := by
  have hn : n < 10 ^ (n + 1) :=
    (Nat.lt_pow_self (by norm_num) n).trans_le (Nat.pow_le_pow_right (by norm_num) (Nat.le_succ n))
  exact decode_toDigitsCore (n + 1) n hn

theorem nat_repr_injective {m n : Nat} (h : Nat.repr m = Nat.repr n) : m = n := by
  have hd : Nat.toDigits 10 m = Nat.toDigits 10 n := by
    have h2 := congrArg String.data h
    simpa [Nat.repr, List.asString] using h2
  calc m = decodeDigits (Nat.toDigits 10 m) := (decode_toDigits m).symm
    _ = decodeDigits (Nat.toDigits 10 n) := by rw [hd]
    _ = n := decode_toDigits n

theorem toDigitsCore_chars :
    ∀ (fuel n : Nat) (ds : List Char) (c : Char),
    c ∈ Nat.toDigitsCore 10 fuel n ds → c ∈ ds ∨ ∃ d, d < 10 ∧ c = Nat.digitChar d := by
  intro fuel
  induction fuel with
  | zero =>
    intro n ds c hc
    simp only [Nat.toDigitsCore] at hc
    exact Or.inl hc
  | succ fuel ih =>
    intro n ds c hc
    simp only [Nat.toDigitsCore] at hc
    by_cases h0 : n / 10 = 0
    · rw [if_pos h0] at hc
      rcases List.mem_cons.mp hc with h | h
      · exact Or.inr ⟨n % 10, by omega, h⟩
      · exact Or.inl h
    · rw [if_neg h0] at hc
      rcases ih (n / 10) (Nat.digitChar (n % 10) :: ds) c hc with h | h
      · rcases List.mem_cons.mp h with h | h
        · exact Or.inr ⟨n % 10, by omega, h⟩
        · exact Or.inl h
      · exact Or.inr h

theorem toDigitsCore_length_ge :
    ∀ (fuel n : Nat) (ds : List Char), ds.length ≤ (Nat.toDigitsCore 10 fuel n ds).length := by
  intro fuel
  induction fuel with
  | zero => intro n ds; simp [Nat.toDigitsCore]
  | succ fuel ih =>
    intro n ds
    simp only [Nat.toDigitsCore]
    by_cases h0 : n / 10 = 0
    · simp [h0]
    · rw [if_neg h0]
      have := ih (n / 10) (Nat.digitChar (n % 10) :: ds)
      simp at this
      omega

theorem toDigits_ne_nil (n : Nat) : Nat.toDigits 10 n ≠ [] := by
  unfold Nat.toDigits
  simp only [Nat.toDigitsCore]
  by_cases h0 : n / 10 = 0
  · simp [h0]
  · rw [if_neg h0]
    intro hEq
    have h1 := toDigitsCore_length_ge n (n / 10) [Nat.digitChar (n % 10)]
    rw [hEq] at h1
    simp at h1

theorem int_repr_injective {a b : Int} (h : Int.repr a = Int.repr b) : a = b := by
  have dash_not_digit : ∀ m : Nat, ('-' : Char) ∉ Nat.toDigits 10 m := by
    intro m hm
    rcases toDigitsCore_chars (m + 1) m [] '-' hm with h1 | ⟨d, hd, hEq⟩
    · simp at h1
    · interval_cases d <;> exact absurd hEq (by decide)
  cases a with
  | ofNat m =>
    cases b with
    | ofNat n =>
      simp only [Int.repr] at h
      exact congrArg Int.ofNat (nat_repr_injective h)
    | negSucc n =>
      exfalso
      simp only [Int.repr] at h
      have h2 := congrArg String.data h
      simp only [Nat.repr, List.asString, String.data_append] at h2
      have : ('-' : Char) ∈ Nat.toDigits 10 m := by
        rw [h2]
        exact List.mem_append_left _ (by simp [String.data])
      exact dash_not_digit m this
  | negSucc m =>
    cases b with
    | ofNat n =>
      exfalso
      simp only [Int.repr] at h
      have h2 := congrArg String.data h
      simp only [Nat.repr, List.asString, String.data_append] at h2
      have : ('-' : Char) ∈ Nat.toDigits 10 n := by
        rw [← h2]
        exact List.mem_append_left _ (by simp [String.data])
      exact dash_not_digit n this
    | negSucc n =>
      simp only [Int.repr] at h
      have h2 := congrArg String.data h
      simp only [String.data_append] at h2
      have h3 : (Nat.repr (m + 1)).data = (Nat.repr (n + 1)).data :=
        List.append_cancel_left h2
      have h4 : Nat.repr (m + 1) = Nat.repr (n + 1) := String.ext h3
      have h5 := nat_repr_injective h4
      have h6 : m = n := by omega
      rw [h6]

theorem int_toString_injective {a b : Int} (h : toString a = toString b) : a = b := by
  have ht : ∀ i : Int, toString i = Int.repr i := by intro i; cases i <;> rfl
  rw [ht, ht] at h
  exact int_repr_injective h

theorem string_append_left_cancel {s a b : String} (h : s ++ a = s ++ b) : a = b := by
  apply String.ext
  have h2 := congrArg String.data h
  simp only [String.data_append] at h2
  exact List.append_cancel_left h2

theorem string_append_right_cancel {a b r : String} (h : a ++ r = b ++ r) : a = b := by
  apply String.ext
  have h2 := congrArg String.data h
  simp only [String.data_append] at h2
  exact List.append_cancel_right h2

theorem cacheKey_id_inj {s1 s2 : CalendarSource} {a b : Int}
    (h : cacheKey s1 a b = cacheKey s2 a b) : s1.id = s2.id := by
  apply String.ext
  have h2 := congrArg String.data h
  simp only [cacheKey, String.data_append, List.append_assoc] at h2
  exact List.append_cancel_right h2

/-! Helper lemmas about the recurrence expansion loop. -/

theorem expandGo_stop (src : CalendarSource) (v : VEvent) (seq : Nat → Option Int)
    (s e : Int) (k : Nat) (h : ¬ k < 100) :
    expandGo src v seq s e k = [] := by
  unfold expandGo
  simp [h]

theorem expandGo_length (src : CalendarSource) (v : VEvent) (seq : Nat → Option Int)
    (s e : Int) :
    ∀ (n k : Nat), 100 - k ≤ n → (expandGo src v seq s e k).length ≤ 100 - k := by
  intro n
  induction n with
  | zero =>
    intro k hk
    rw [expandGo_stop src v seq s e k (by omega)]
    simp
  | succ n ih =>
    intro k hk
    by_cases h : k < 100
    · unfold expandGo
      simp only [h, dite_true]
      cases hs : seq k with
      | none => simp
      | some occStart =>
        simp only
        split
        · have := ih (k + 1) (by omega)
          simp only [List.length_cons]
          omega
        · split
          · simp
          · have := ih (k + 1) (by omega)
            omega
    · rw [expandGo_stop src v seq s e k h]
      simp

theorem expandGo_mem (src : CalendarSource) (v : VEvent) (seq : Nat → Option Int)
    (s e : Int) :
    ∀ (n k : Nat), 100 - k ≤ n → ∀ ev ∈ expandGo src v seq s e k,
      ev.start ≤ e ∧ s ≤ ev.end_ ∧
      ev.id = src.id ++ "-" ++ v.uid ++ "-" ++ toString ev.start ∧
      ∃ j, k ≤ j ∧ j < 100 ∧ seq j = some ev.start := by
  intro n
  induction n with
  | zero =>
    intro k hk ev hev
    rw [expandGo_stop src v seq s e k (by omega)] at hev
    simp at hev
  | succ n ih =>
    intro k hk ev hev
    by_cases h : k < 100
    · unfold expandGo at hev
      simp only [h, dite_true] at hev
      cases hs : seq k with
      | none => rw [hs] at hev; simp at hev
      | some occStart =>
        rw [hs] at hev
        simp only at hev
        by_cases hin : occStart ≤ e ∧ s ≤ occStart + (v.dtend - v.dtstart)
        · rw [if_pos hin] at hev
          rcases List.mem_cons.mp hev with hev | hev
          · subst hev
            refine ⟨hin.1, hin.2, rfl, k, le_refl k, h, hs⟩
          · obtain ⟨h1, h2, h3, j, hj1, hj2, hj3⟩ := ih (k + 1) (by omega) ev hev
            exact ⟨h1, h2, h3, j, by omega, hj2, hj3⟩
        · rw [if_neg hin] at hev
          split at hev
          · simp at hev
          · obtain ⟨h1, h2, h3, j, hj1, hj2, hj3⟩ := ih (k + 1) (by omega) ev hev
            exact ⟨h1, h2, h3, j, by omega, hj2, hj3⟩
    · rw [expandGo_stop src v seq s e k h] at hev
      simp at hev

theorem strictUpTo_lt {seq : Nat → Option Int} (h : strictUpTo seq 100 = true)
    {i j : Nat} {a b : Int} (hij : i < j) (hj : j < 100)
    (ha : seq i = some a) (hb : seq j = some b) : a < b := by
  simp only [strictUpTo, List.all_eq_true, List.mem_range] at h
  have h2 := h j hj i hij
  rw [ha, hb] at h2
  simpa using h2

theorem expandGo_pairwise (src : CalendarSource) (v : VEvent) (seq : Nat → Option Int)
    (s e : Int) (hmono : strictUpTo seq 100 = true) :
    ∀ (n k : Nat), 100 - k ≤ n →
    (expandGo src v seq s e k).Pairwise (fun a b => a.start < b.start) := by
  intro n
  induction n with
  | zero =>
    intro k hk
    rw [expandGo_stop src v seq s e k (by omega)]
    exact List.Pairwise.nil
  | succ n ih =>
    intro k hk
    by_cases h : k < 100
    · unfold expandGo
      simp only [h, dite_true]
      cases hs : seq k with
      | none => exact List.Pairwise.nil
      | some occStart =>
        simp only
        split
        · refine List.Pairwise.cons ?_ (ih (k + 1) (by omega))
          intro b hb
          obtain ⟨_, _, _, j, hj1, hj2, hj3⟩ :=
            expandGo_mem src v seq s e 100 (k + 1) (by omega) b hb
          exact strictUpTo_lt hmono (by omega) hj2 hs hj3
        · split
          · exact List.Pairwise.nil
          · exact ih (k + 1) (by omega)
    · rw [expandGo_stop src v seq s e k h]
      exact List.Pairwise.nil

theorem expandGo_starved (src : CalendarSource) (v : VEvent) (seq : Nat → Option Int)
    (s e : Int) (hall : allEndBeforeWindow seq (v.dtend - v.dtstart) s 100 = true) :
    ∀ (n k : Nat), 100 - k ≤ n → expandGo src v seq s e k = [] := by
  simp only [allEndBeforeWindow, List.all_eq_true, List.mem_range] at hall
  intro n
  induction n with
  | zero =>
    intro k hk
    exact expandGo_stop src v seq s e k (by omega)
  | succ n ih =>
    intro k hk
    by_cases h : k < 100
    · unfold expandGo
      simp only [h, dite_true]
      have hk2 := hall k h
      cases hs : seq k with
      | none => rfl
      | some occStart =>
        rw [hs] at hk2
        have hlt : occStart + (v.dtend - v.dtstart) < s := by simpa using hk2
        simp only
        rw [if_neg (by intro hc; have h2 := hc.2; omega)]
        split
        · rfl
        · exact ih (k + 1) (by omega)
    · exact expandGo_stop src v seq s e k h

/-- C2: for every RRULE-bearing VEVENT and every query window, the
expansion loop enumerates at most 100 occurrences and terminates (it is a
total function), and every returned occurrence intersects the window — in
particular its start does not exceed the window's end, so iteration stops
once occurrence starts pass `rangeEnd`; the bound holds for any occurrence
sequence, including one with no COUNT/UNTIL bound and sub-hour frequency
over a 10-year window. -/
theorem recurrence_expansion_bounded (src : CalendarSource) (v : VEvent)
    (seq : Nat → Option Int) (rangeStart rangeEnd : Int) :
    (expandRecurring src v seq rangeStart rangeEnd).length ≤ 100 ∧
    ∀ ev ∈ expandRecurring src v seq rangeStart rangeEnd,
      ev.start ≤ rangeEnd ∧ rangeStart ≤ ev.end_ := by
  constructor
  · have h := expandGo_length src v seq rangeStart rangeEnd 100 0 (by omega)
    simpa [expandRecurring] using h
  · intro ev hev
    obtain ⟨h1, h2, _, _⟩ :=
      expandGo_mem src v seq rangeStart rangeEnd 100 0 (by omega) ev hev
    exact ⟨h1, h2⟩

/-- C10: when the first 100 enumerated occurrences of a recurring VEVENT
all end before `rangeStart`, the expansion contributes zero events to the
window, regardless of whether later occurrences of the series would fall
inside it. -/
theorem recurrence_cap_starvation (src : CalendarSource) (v : VEvent)
    (seq : Nat → Option Int) (rangeStart rangeEnd : Int)
    (hall : allEndBeforeWindow seq (v.dtend - v.dtstart) rangeStart 100 = true) :
    expandRecurring src v seq rangeStart rangeEnd = [] :=
  expandGo_starved src v seq rangeStart rangeEnd hall 100 0 (by omega)

theorem recurrence_cap_starvation_witness :
    allEndBeforeWindow seqStarved (vStarved.dtend - vStarved.dtstart) 10000 100 = true ∧
    expandRecurring src10 vStarved seqStarved 10000 20000 = [] :=
  ⟨by decide, recurrence_cap_starvation src10 vStarved seqStarved 10000 20000 (by decide)⟩

/-- C6 fails as stated: a feed that contains the same non-recurring VEVENT
twice yields the same event instance twice in a single fetch's result, with
identical composite ids, so the result is not duplicate-free. -/
theorem event_identity_counterexample :
    ¬ (fetchCalendarEvents cfgNone world6 0 [src6] 0 1000 emptyCache).1.Nodup := by
  decide

/-- C6 amended: every expanded occurrence's id is the composite of source
id, event UID and occurrence start timestamp, and a non-recurring event's
id is the composite of source id and UID; within the expansion of one
recurring VEVENT whose occurrence starts strictly increase, ids are
pairwise distinct.  Uniqueness across distinct VEVENTs of one fetch is not
guaranteed (duplicate VEVENTs yield duplicate instances). -/
theorem occurrence_identity_composite_unique (src : CalendarSource) (v : VEvent)
    (seq : Nat → Option Int) (rangeStart rangeEnd : Int)
    (hmono : strictUpTo seq 100 = true) :
    (∀ ev ∈ expandRecurring src v seq rangeStart rangeEnd,
       ev.id = src.id ++ "-" ++ v.uid ++ "-" ++ toString ev.start) ∧
    ((expandRecurring src v seq rangeStart rangeEnd).map (fun ev => ev.id)).Nodup ∧
    (∀ w : VEvent, w.rrule = none →
       ∀ ev ∈ processVEvent src rangeStart rangeEnd w,
         ev.id = src.id ++ "-" ++ w.uid) := by
  have hform : ∀ ev ∈ expandRecurring src v seq rangeStart rangeEnd,
      ev.id = src.id ++ "-" ++ v.uid ++ "-" ++ toString ev.start := by
    intro ev hev
    obtain ⟨_, _, h3, _⟩ :=
      expandGo_mem src v seq rangeStart rangeEnd 100 0 (by omega) ev hev
    exact h3
  refine ⟨hform, ?_, ?_⟩
  · have hpw := expandGo_pairwise src v seq rangeStart rangeEnd hmono 100 0 (by omega)
    simp only [List.Nodup, List.pairwise_map]
    refine List.Pairwise.imp_of_mem ?_ hpw
    intro a b ha hb hlt hEq
    rw [hform a ha, hform b hb] at hEq
    have hts := string_append_left_cancel hEq
    have := int_toString_injective hts
    omega
  · intro w hw ev hev
    simp only [processVEvent, hw] at hev
    split at hev
    · rcases List.mem_singleton.mp hev with h
      subst h
      rfl
    · simp at hev

theorem occurrence_identity_composite_unique_witness :
    strictUpTo seqMono 100 = true ∧
    ((expandRecurring src6 vRec seqMono 0 10000000).map (fun ev => ev.id)).Nodup :=
  ⟨by decide,
   (occurrence_identity_composite_unique src6 vRec seqMono 0 10000000 (by decide)).2.1⟩

/-- C7 fails as stated: an update whose patch carries an `id` field
rewrites the matched source's id, because the spread merge lets the patch
override every field. -/
theorem registry_id_mutation_counterexample :
    (updateCalendarSource "a" patch7 [src7]).map (fun s => s.id) ≠ ["a"] := by
  decide

/-- C7 amended: an update whose patch does not carry an `id` field leaves
every source's id unchanged (hence also the matched one's), and an update
whose id matches no source leaves the registry list entirely unchanged. -/
theorem registry_update_preserves_ids (id : String) (p : SourcePatch)
    (sources : List CalendarSource) (hid : p.id = none) :
    (updateCalendarSource id p sources).map (fun s => s.id) =
      sources.map (fun s => s.id) ∧
    ((∀ s ∈ sources, s.id ≠ id) → updateCalendarSource id p sources = sources) := by
  constructor
  · induction sources with
    | nil => rfl
    | cons s rest ih =>
      simp only [updateCalendarSource]
      by_cases h : s.id = id
      · simp [h, applyPatch, hid]
      · simp [h, ih]
  · intro hnone
    induction sources with
    | nil => rfl
    | cons s rest ih =>
      simp only [updateCalendarSource]
      have h1 : s.id ≠ id := hnone s (by simp)
      rw [if_neg h1]
      rw [ih (fun x hx => hnone x (by simp [hx]))]

theorem registry_update_preserves_ids_witness :
    (patchName.id = none) ∧
    ((updateCalendarSource "a" patchName [src7]).map (fun s => s.id) =
      [src7].map (fun s => s.id)) :=
  ⟨rfl, (registry_update_preserves_ids "a" patchName [src7] rfl).1⟩

/-- C4: `shouldShowEvent` is true exactly when no filter hour is
configured, or the event is all-day, or the configured hour is at most the
event's start hour in the resolved zone; so with a configured hour H every
all-day event passes (for every H, including 0 and 23), and a timed event
passes exactly when its zoned start hour is at least H (hour H passes,
hour H−1 fails). -/
theorem shouldShowEvent_spec (cfg : Config) (event : CalendarEvent) :
    shouldShowEvent cfg event = true ↔
      (cfg.filterHour = none ∨ event.allDay = true ∨
        ∃ h, cfg.filterHour = some h ∧
          h ≤ jsGetHours (toTimeZone event.start cfg.userTz)) := by
  cases hf : cfg.filterHour with
  | none => simp [shouldShowEvent, getEventFilterHour, hf]
  | some h =>
    cases hd : event.allDay with
    | true => simp [shouldShowEvent, getEventFilterHour, hf, hd]
    | false =>
      simp only [shouldShowEvent, getEventFilterHour, getUserTimezone, hf, hd,
        if_false, Bool.false_eq_true, false_or, decide_eq_true_eq]
      constructor
      · intro hle
        exact Or.inr ⟨h, rfl, hle⟩
      · rintro (h1 | ⟨h2, hh2, hle⟩)
        · exact absurd h1 (by simp)
        · have : h = h2 := Option.some.inj hh2
          rw [this]
          exact hle

theorem Tz.offset_mem (z : Tz) (t : Int) : z.offset t ∈ z.offsets := by
  unfold Tz.offset Tz.offsets
  have hgen : ∀ (l : List (Int × Int)) (acc : Int),
      l.foldl (fun acc tr => if tr.1 ≤ t then tr.2 else acc) acc = acc ∨
      l.foldl (fun acc tr => if tr.1 ≤ t then tr.2 else acc) acc ∈
        l.map (fun tr => tr.2) := by
    intro l
    induction l with
    | nil => intro acc; exact Or.inl rfl
    | cons x xs ih =>
      intro acc
      simp only [List.foldl_cons, List.map_cons]
      by_cases h : x.1 ≤ t
      · rw [if_pos h]
        rcases ih x.2 with h2 | h2
        · right; rw [h2]; exact List.mem_cons_self _ _
        · right; exact List.mem_cons_of_mem _ h2
      · rw [if_neg h]
        rcases ih acc with h2 | h2
        · left; exact h2
        · right; exact List.mem_cons_of_mem _ h2
  rcases hgen z.transitions z.base with h | h
  · rw [h]; exact List.mem_cons_self _ _
  · exact List.mem_cons_of_mem _ h

theorem foldl_min_const (u : Int) : ∀ (us : List Int), (∀ x ∈ us, x = u) →
    us.foldl (fun a b => if b < a then b else a) u = u := by
  intro us
  induction us with
  | nil => intro _; rfl
  | cons x xs ih =>
    intro hall
    have hx : x = u := hall x (by simp)
    rw [List.foldl_cons, hx]
    simp only [lt_self_iff_false, if_false]
    exact ih (fun y hy => hall y (by simp [hy]))

/-- C8 (spec-modelled): interpreting the zoned wall clock of an instant
back through `fromTimeZone` returns the instant whenever the wall clock is
unambiguous in the zone; the fold policy itself is a fixed deterministic
function, hence consistent across repeated calls. -/
theorem zone_round_trip (z : Tz) (t : Int)
    (hunique : ∀ o ∈ z.offsets,
      z.offset (toTimeZone t z - o) = o → toTimeZone t z - o = t) :
    fromTimeZone (toTimeZone t z) z = t := by
  unfold fromTimeZone Tz.fromLocal
  have hwt : toTimeZone t z - z.offset t = t := by
    simp only [toTimeZone]
    ring
  have hmemcand : t ∈ z.offsets.filterMap (fun o =>
      if z.offset (toTimeZone t z - o) = o then some (toTimeZone t z - o) else none) := by
    apply List.mem_filterMap.mpr
    refine ⟨z.offset t, Tz.offset_mem z t, ?_⟩
    rw [if_pos (by rw [hwt]), hwt]
  have hallt : ∀ u ∈ z.offsets.filterMap (fun o =>
      if z.offset (toTimeZone t z - o) = o then some (toTimeZone t z - o) else none),
      u = t := by
    intro u hu
    obtain ⟨o, ho, hcond⟩ := List.mem_filterMap.mp hu
    by_cases h : z.offset (toTimeZone t z - o) = o
    · rw [if_pos h] at hcond
      have : toTimeZone t z - o = u := Option.some.inj hcond
      rw [← this]
      exact hunique o ho h
    · rw [if_neg h] at hcond
      cases hcond
  cases hc : z.offsets.filterMap (fun o =>
      if z.offset (toTimeZone t z - o) = o then some (toTimeZone t z - o) else none) with
  | nil =>
    rw [hc] at hmemcand
    simp at hmemcand
  | cons u us =>
    simp only [hc]
    have hu : u = t := hallt u (by rw [hc]; exact List.mem_cons_self _ _)
    rw [hu]
    exact foldl_min_const t us (fun x hx => hallt x (by rw [hc]; exact List.mem_cons_of_mem _ hx))

theorem zone_round_trip_witness :
    (∀ o ∈ dstTz.offsets,
      dstTz.offset (toTimeZone 0 dstTz - o) = o → toTimeZone 0 dstTz - o = 0) ∧
    fromTimeZone (toTimeZone 0 dstTz) dstTz = 0 :=
  ⟨by decide, zone_round_trip dstTz 0 (by decide)⟩

theorem fetchFresh_ok {world : World} {src : CalendarSource} {ves : List VEvent}
    (hw : world src.url = .ok ves) (now s e : Int) (c : Cache) :
    fetchFresh world now src s e c =
      (.ok (processVEvents src ves s e),
       setCache c (cacheKey src s e) (processVEvents src ves s e, now)) := by
  simp [fetchFresh, hw]

theorem fetchFresh_err {world : World} {src : CalendarSource}
    (hw : (world src.url).isOk = false) (now s e : Int) (c : Cache) :
    ∃ msg, fetchFresh world now src s e c = (.error msg, c) := by
  cases h : world src.url with
  | ok ves => rw [h] at hw; simp [FetchOutcome.isOk] at hw
  | httpError status statusText =>
    exact ⟨"HTTP " ++ toString status ++ ": " ++ statusText, by simp [fetchFresh, h]⟩
  | timeout => exact ⟨"This operation was aborted", by simp [fetchFresh, h]⟩
  | emptyBody => exact ⟨"Empty ICS data received", by simp [fetchFresh, h]⟩
  | parseFailure msg =>
    exact ⟨"Failed to parse ICS data: " ++ msg, by simp [fetchFresh, h]⟩

theorem fetchSrc_miss {c : Cache} {now : Int} {src : CalendarSource} {s e : Int}
    (hm : effHit c now (cacheKey src s e) = none) (world : World) :
    fetchEventsFromSource world now src s e c = fetchFresh world now src s e c := by
  simp [fetchEventsFromSource, hm]

theorem fetchSrc_hit {c : Cache} {now : Int} {src : CalendarSource} {s e : Int}
    {evs : List CalendarEvent}
    (hh : effHit c now (cacheKey src s e) = some evs) (world : World) :
    fetchEventsFromSource world now src s e c = (.ok evs, c) := by
  simp [fetchEventsFromSource, hh]

theorem fetchLoop_fresh (world : World) (now s e : Int) :
    ∀ (srcs : List CalendarSource) (c : Cache),
    (∀ src ∈ srcs, c (cacheKey src s e) = none) →
    ((srcs.map (fun x => x.id)).Nodup) →
    (fetchLoop world now s e srcs c).1 =
        srcs.flatMap (fun src => sourceFreshEvents world src s e) ∧
    (∀ src ∈ srcs, (world src.url).isOk = true →
      (fetchLoop world now s e srcs c).2 (cacheKey src s e) =
        some (sourceFreshEvents world src s e, now)) ∧
    (∀ k, (∀ src ∈ srcs, k ≠ cacheKey src s e) →
      (fetchLoop world now s e srcs c).2 k = c k) := by
  intro srcs
  induction srcs with
  | nil =>
    intro c _ _
    refine ⟨rfl, ?_, ?_⟩
    · intro src h; simp at h
    · intro k _; rfl
  | cons src rest ih =>
    intro c hmiss hnodup
    have hkeyc : c (cacheKey src s e) = none := hmiss src (List.mem_cons_self _ _)
    have heff : effHit c now (cacheKey src s e) = none := by simp [effHit, hkeyc]
    have hne : ∀ x ∈ rest, cacheKey x s e ≠ cacheKey src s e := by
      intro x hx hEq
      have hxid : x.id = src.id := cacheKey_id_inj hEq
      have hsrcnot : src.id ∉ rest.map (fun y => y.id) := (List.nodup_cons.mp hnodup).1
      exact hsrcnot (List.mem_map.mpr ⟨x, hx, hxid⟩)
    have hnodup2 : (rest.map (fun x => x.id)).Nodup := (List.nodup_cons.mp hnodup).2
    by_cases hOk : (world src.url).isOk = true
    · obtain ⟨ves, hves⟩ : ∃ ves, world src.url = .ok ves := by
        cases hw : world src.url with
        | ok ves => exact ⟨ves, rfl⟩
        | httpError a b => rw [hw] at hOk; simp [FetchOutcome.isOk] at hOk
        | timeout => rw [hw] at hOk; simp [FetchOutcome.isOk] at hOk
        | emptyBody => rw [hw] at hOk; simp [FetchOutcome.isOk] at hOk
        | parseFailure m => rw [hw] at hOk; simp [FetchOutcome.isOk] at hOk
      have hstep : fetchEventsFromSource world now src s e c =
          (.ok (processVEvents src ves s e),
            setCache c (cacheKey src s e) (processVEvents src ves s e, now)) := by
        rw [fetchSrc_miss heff, fetchFresh_ok hves]
      have hmiss2 : ∀ x ∈ rest,
          (setCache c (cacheKey src s e) (processVEvents src ves s e, now))
            (cacheKey x s e) = none := by
        intro x hx
        simp only [setCache, if_neg (hne x hx)]
        exact hmiss x (List.mem_cons_of_mem _ hx)
      obtain ⟨ih1, ih2, ih3⟩ :=
        ih (setCache c (cacheKey src s e) (processVEvents src ves s e, now)) hmiss2 hnodup2
      have hfe : sourceFreshEvents world src s e = processVEvents src ves s e := by
        simp [sourceFreshEvents, hves]
      refine ⟨?_, ?_, ?_⟩
      · simp only [fetchLoop, hstep]
        rw [List.flatMap_cons, ih1, hfe]
      · intro x hx hxok
        rcases List.mem_cons.mp hx with hx1 | hx2
        · subst hx1
          simp only [fetchLoop, hstep]
          rw [ih3 (cacheKey x s e) (fun y hy => (hne y hy).symm)]
          simp [setCache, hfe]
        · simp only [fetchLoop, hstep]
          exact ih2 x hx2 hxok
      · intro k hk
        simp only [fetchLoop, hstep]
        rw [ih3 k (fun y hy => hk y (List.mem_cons_of_mem _ hy))]
        simp only [setCache, if_neg (hk src (List.mem_cons_self _ _))]
    · have hOkf : (world src.url).isOk = false := by simpa using hOk
      obtain ⟨msg, hstep0⟩ := fetchFresh_err hOkf now s e c
      have hstep : fetchEventsFromSource world now src s e c = (.error msg, c) := by
        rw [fetchSrc_miss heff]; exact hstep0
      obtain ⟨ih1, ih2, ih3⟩ :=
        ih c (fun x hx => hmiss x (List.mem_cons_of_mem _ hx)) hnodup2
      have hfe : sourceFreshEvents world src s e = [] := by
        cases hw : world src.url with
        | ok ves => rw [hw] at hOkf; simp [FetchOutcome.isOk] at hOkf
        | httpError a b => simp [sourceFreshEvents, hw]
        | timeout => simp [sourceFreshEvents, hw]
        | emptyBody => simp [sourceFreshEvents, hw]
        | parseFailure m => simp [sourceFreshEvents, hw]
      refine ⟨?_, ?_, ?_⟩
      · simp only [fetchLoop, hstep]
        rw [List.flatMap_cons, ih1, hfe]
        simp
      · intro x hx hxok
        rcases List.mem_cons.mp hx with hx1 | hx2
        · subst hx1
          rw [hxok] at hOkf
          exact Bool.noConfusion hOkf
        · simp only [fetchLoop, hstep]
          exact ih2 x hx2 hxok
      · intro k hk
        simp only [fetchLoop, hstep]
        exact ih3 k (fun y hy => hk y (List.mem_cons_of_mem _ hy))

theorem fetchLoop_hits (world : World) (now s e : Int) :
    ∀ (srcs : List CalendarSource) (c : Cache)
      (f : CalendarSource → List CalendarEvent) (ts : CalendarSource → Int),
    (∀ src ∈ srcs, c (cacheKey src s e) = some (f src, ts src) ∧
        now - ts src < CACHE_DURATION) →
    fetchLoop world now s e srcs c = (srcs.flatMap f, c) := by
  intro srcs
  induction srcs with
  | nil => intro c f ts _; rfl
  | cons src rest ih =>
    intro c f ts hall
    obtain ⟨hc, hts⟩ := hall src (List.mem_cons_self _ _)
    have hh : effHit c now (cacheKey src s e) = some (f src) := by
      simp [effHit, hc, hts]
    have hstep : fetchEventsFromSource world now src s e c = (.ok (f src), c) :=
      fetchSrc_hit hh world
    simp only [fetchLoop, hstep]
    rw [ih c f ts (fun x hx => hall x (List.mem_cons_of_mem _ hx))]
    simp [List.flatMap_cons]

theorem fetchLoop_eff (now s e : Int) :
    ∀ (srcs : List CalendarSource) (world : World) (c c' : Cache),
    (∀ src ∈ srcs, effHit c now (cacheKey src s e) = effHit c' now (cacheKey src s e)) →
    (fetchLoop world now s e srcs c).1 = (fetchLoop world now s e srcs c').1 := by
  intro srcs
  induction srcs with
  | nil => intro world c c' _; rfl
  | cons src rest ih =>
    intro world c c' hall
    have hsrc := hall src (List.mem_cons_self _ _)
    cases hh : effHit c now (cacheKey src s e) with
    | some evs =>
      have hh2 : effHit c' now (cacheKey src s e) = some evs := by rw [← hsrc]; exact hh
      simp only [fetchLoop, fetchSrc_hit hh world, fetchSrc_hit hh2 world]
      rw [ih world c c' (fun x hx => hall x (List.mem_cons_of_mem _ hx))]
    | none =>
      have hh2 : effHit c' now (cacheKey src s e) = none := by rw [← hsrc]; exact hh
      cases hw : world src.url with
      | ok ves =>
        simp only [fetchLoop, fetchSrc_miss hh world, fetchSrc_miss hh2 world,
          fetchFresh_ok hw]
        have hnext : ∀ x ∈ rest,
            effHit (setCache c (cacheKey src s e) (processVEvents src ves s e, now)) now
              (cacheKey x s e) =
            effHit (setCache c' (cacheKey src s e) (processVEvents src ves s e, now)) now
              (cacheKey x s e) := by
          intro x hx
          by_cases hxk : cacheKey x s e = cacheKey src s e
          · simp [effHit, setCache, hxk]
          · simp only [effHit, setCache, if_neg hxk]
            exact hall x (List.mem_cons_of_mem _ hx)
        rw [ih world _ _ hnext]
      | httpError a b =>
        simp only [fetchLoop, fetchSrc_miss hh world, fetchSrc_miss hh2 world, fetchFresh]
        rw [hw]
        exact ih world c c' (fun x hx => hall x (List.mem_cons_of_mem _ hx))
      | timeout =>
        simp only [fetchLoop, fetchSrc_miss hh world, fetchSrc_miss hh2 world, fetchFresh]
        rw [hw]
        exact ih world c c' (fun x hx => hall x (List.mem_cons_of_mem _ hx))
      | emptyBody =>
        simp only [fetchLoop, fetchSrc_miss hh world, fetchSrc_miss hh2 world, fetchFresh]
        rw [hw]
        exact ih world c c' (fun x hx => hall x (List.mem_cons_of_mem _ hx))
      | parseFailure m =>
        simp only [fetchLoop, fetchSrc_miss hh world, fetchSrc_miss hh2 world, fetchFresh]
        rw [hw]
        exact ih world c c' (fun x hx => hall x (List.mem_cons_of_mem _ hx))

theorem fetchCalendarEvents_eq (cfg : Config) (world : World) (now : Int)
    (registry : List CalendarSource) (s e : Int) (c : Cache)
    (hne : ¬ (getCalendarSources registry).isEmpty = true) :
    fetchCalendarEvents cfg world now registry s e c =
      (sortEvents
        (((fetchLoop world now s e (getCalendarSources registry) c).1).filter
          (fun ev => shouldShowEvent cfg ev)),
       (fetchLoop world now s e (getCalendarSources registry) c).2) := by
  simp only [fetchCalendarEvents, if_neg hne]

theorem fetchCalendarEvents_empty (cfg : Config) (world : World) (now : Int)
    (registry : List CalendarSource) (s e : Int) (c : Cache)
    (hemp : (getCalendarSources registry).isEmpty = true) :
    fetchCalendarEvents cfg world now registry s e c = ([], c) := by
  simp only [fetchCalendarEvents, if_pos hemp]

/-- C1: with a cold cache, `fetchCalendarEvents` returns (it is a total
function, so no exception escapes) exactly the events of the succeeding
enabled sources — the union of the per-source results, each failing source
contributing zero events — filtered by `shouldShowEvent` and sorted
non-decreasing by start instant. -/
theorem fetch_source_isolation (cfg : Config) (world : World) (now : Int)
    (registry : List CalendarSource) (startDate endDate : Int)
    (hnodup : ((getCalendarSources registry).map (fun s => s.id)).Nodup) :
    (fetchCalendarEvents cfg world now registry startDate endDate emptyCache).1.Perm
      (((getCalendarSources registry).flatMap
          (fun src => sourceFreshEvents world src startDate endDate)).filter
        (fun ev => shouldShowEvent cfg ev)) ∧
    (fetchCalendarEvents cfg world now registry startDate endDate emptyCache).1.Sorted
      eventLe := by
  by_cases hemp : (getCalendarSources registry).isEmpty = true
  · have hnil : getCalendarSources registry = [] := List.isEmpty_iff.mp hemp
    rw [fetchCalendarEvents_empty cfg world now registry startDate endDate emptyCache hemp,
      hnil]
    exact ⟨List.Perm.refl _, List.sorted_nil⟩
  · obtain ⟨h1, _, _⟩ := fetchLoop_fresh world now startDate endDate
      (getCalendarSources registry) emptyCache (fun _ _ => rfl) hnodup
    rw [fetchCalendarEvents_eq cfg world now registry startDate endDate emptyCache hemp]
    constructor
    · rw [h1]
      exact List.perm_insertionSort _ _
    · exact List.sorted_insertionSort _ _

theorem fetch_source_isolation_witness :
    (((getCalendarSources [srcA, srcB]).map (fun s => s.id)).Nodup) ∧
    ((fetchCalendarEvents cfgNone worldAB 0 [srcA, srcB] 0 1000 emptyCache).1.Perm
      (((getCalendarSources [srcA, srcB]).flatMap
          (fun src => sourceFreshEvents worldAB src 0 1000)).filter
        (fun ev => shouldShowEvent cfgNone ev)) ∧
     (fetchCalendarEvents cfgNone worldAB 0 [srcA, srcB] 0 1000 emptyCache).1.Sorted
       eventLe) :=
  ⟨by decide, fetch_source_isolation cfgNone worldAB 0 [srcA, srcB] 0 1000 (by decide)⟩

/-- C3: after a first `fetchCalendarEvents` call on a cold cache in which
every enabled source succeeds, a second call with the same window within
the TTL returns the identical result and cache without consulting the
remote world at all; once the TTL has elapsed the cached entries are
ignored (the call behaves as on a cold cache), and after `clearEventCache`
the next call likewise fetches from scratch. -/
theorem cache_freshness (cfg : Config) (world : World) (now1 now2 : Int)
    (registry : List CalendarSource) (startDate endDate : Int)
    (hnodup : ((getCalendarSources registry).map (fun s => s.id)).Nodup)
    (hok : ∀ src ∈ getCalendarSources registry, (world src.url).isOk = true) :
    ((now2 - now1 < CACHE_DURATION) → ∀ world2 : World,
      fetchCalendarEvents cfg world2 now2 registry startDate endDate
          (fetchCalendarEvents cfg world now1 registry startDate endDate emptyCache).2 =
        fetchCalendarEvents cfg world now1 registry startDate endDate emptyCache) ∧
    ((CACHE_DURATION ≤ now2 - now1) → ∀ world2 : World,
      (fetchCalendarEvents cfg world2 now2 registry startDate endDate
          (fetchCalendarEvents cfg world now1 registry startDate endDate emptyCache).2).1 =
        (fetchCalendarEvents cfg world2 now2 registry startDate endDate emptyCache).1) ∧
    (∀ world2 : World,
      fetchCalendarEvents cfg world2 now2 registry startDate endDate
          (clearEventCache
            (fetchCalendarEvents cfg world now1 registry startDate endDate emptyCache).2) =
        fetchCalendarEvents cfg world2 now2 registry startDate endDate emptyCache) := by
  by_cases hemp : (getCalendarSources registry).isEmpty = true
  · refine ⟨?_, ?_, ?_⟩
    · intro _ world2
      rw [fetchCalendarEvents_empty cfg world now1 registry startDate endDate emptyCache hemp]
      rw [fetchCalendarEvents_empty cfg world2 now2 registry startDate endDate emptyCache hemp]
    · intro _ world2
      rw [fetchCalendarEvents_empty cfg world now1 registry startDate endDate emptyCache hemp]
    · intro world2
      rfl
  · obtain ⟨L1, L2, _⟩ := fetchLoop_fresh world now1 startDate endDate
      (getCalendarSources registry) emptyCache (fun _ _ => rfl) hnodup
    have hc1 : (fetchCalendarEvents cfg world now1 registry startDate endDate emptyCache).2 =
        (fetchLoop world now1 startDate endDate (getCalendarSources registry) emptyCache).2 := by
      rw [fetchCalendarEvents_eq cfg world now1 registry startDate endDate emptyCache hemp]
    refine ⟨?_, ?_, ?_⟩
    · intro hlt world2
      have hhits := fetchLoop_hits world2 now2 startDate endDate
        (getCalendarSources registry)
        (fetchLoop world now1 startDate endDate (getCalendarSources registry) emptyCache).2
        (fun src => sourceFreshEvents world src startDate endDate)
        (fun _ => now1)
        (fun src hs => ⟨L2 src hs (hok src hs), hlt⟩)
      rw [hc1, fetchCalendarEvents_eq cfg world2 now2 registry startDate endDate _ hemp,
        fetchCalendarEvents_eq cfg world now1 registry startDate endDate emptyCache hemp,
        hhits, L1]
    · intro hge world2
      have heq : ∀ src ∈ getCalendarSources registry,
          effHit (fetchLoop world now1 startDate endDate
              (getCalendarSources registry) emptyCache).2 now2
            (cacheKey src startDate endDate) =
          effHit emptyCache now2 (cacheKey src startDate endDate) := by
        intro src hs
        rw [effHit, L2 src hs (hok src hs)]
        simp only [effHit, emptyCache]
        rw [if_neg (by omega)]
      have heff := fetchLoop_eff now2 startDate endDate (getCalendarSources registry)
        world2 _ emptyCache heq
      rw [hc1, fetchCalendarEvents_eq cfg world2 now2 registry startDate endDate _ hemp,
        fetchCalendarEvents_eq cfg world2 now2 registry startDate endDate emptyCache hemp]
      simp only
      rw [heff]
    · intro world2
      rfl

theorem cache_freshness_witness :
    (((getCalendarSources [srcC]).map (fun s => s.id)).Nodup) ∧
    (∀ src ∈ getCalendarSources [srcC], (worldC src.url).isOk = true) ∧
    ((60000 : Int) - 0 < CACHE_DURATION) ∧
    (fetchCalendarEvents cfgNone world9ok 60000 [srcC] 0 1000
        (fetchCalendarEvents cfgNone worldC 0 [srcC] 0 1000 emptyCache).2 =
      fetchCalendarEvents cfgNone worldC 0 [srcC] 0 1000 emptyCache) :=
  ⟨by decide, by decide, by decide,
   (cache_freshness cfgNone worldC 0 60000 [srcC] 0 1000 (by decide) (by decide)).1
     (by decide) world9ok⟩

/-- C9: a failed fetch writes nothing to the cache — the attempt leaves
the store unchanged and surfaces an error for that source — so a
subsequent call for the same key attempts the remote fetch again and, if
the world now answers, returns the freshly processed events instead of a
cached failure. -/
theorem failure_not_cached (world : World) (now : Int) (src : CalendarSource)
    (startDate endDate : Int) (c : Cache)
    (hfail : (world src.url).isOk = false)
    (hmiss : effHit c now (cacheKey src startDate endDate) = none) :
    (fetchEventsFromSource world now src startDate endDate c).2 = c ∧
    (∃ msg, (fetchEventsFromSource world now src startDate endDate c).1 =
      .error msg) ∧
    (∀ (world2 : World) (now2 : Int) (ves : List VEvent),
      world2 src.url = .ok ves →
      effHit c now2 (cacheKey src startDate endDate) = none →
      (fetchEventsFromSource world2 now2 src startDate endDate
          (fetchEventsFromSource world now src startDate endDate c).2).1 =
        .ok (processVEvents src ves startDate endDate)) := by
  obtain ⟨msg, hstep0⟩ := fetchFresh_err hfail now startDate endDate c
  have hstep : fetchEventsFromSource world now src startDate endDate c = (.error msg, c) := by
    rw [fetchSrc_miss hmiss]
    exact hstep0
  refine ⟨by rw [hstep], ⟨msg, by rw [hstep]⟩, ?_⟩
  intro world2 now2 ves hw2 hm2
  rw [hstep]
  simp only
  rw [fetchSrc_miss hm2, fetchFresh_ok hw2]

theorem failure_not_cached_witness :
    ((world9fail src9.url).isOk = false) ∧
    (effHit emptyCache 0 (cacheKey src9 0 1000) = none) ∧
    ((fetchEventsFromSource world9fail 0 src9 0 1000 emptyCache).2 = emptyCache ∧
     (∃ msg, (fetchEventsFromSource world9fail 0 src9 0 1000 emptyCache).1 =
       .error msg) ∧
     (∀ (world2 : World) (now2 : Int) (ves : List VEvent),
       world2 src9.url = .ok ves →
       effHit emptyCache now2 (cacheKey src9 0 1000) = none →
       (fetchEventsFromSource world2 now2 src9 0 1000
           (fetchEventsFromSource world9fail 0 src9 0 1000 emptyCache).2).1 =
         .ok (processVEvents src9 ves 0 1000))) :=
  ⟨by decide, by decide,
   failure_not_cached world9fail 0 src9 0 1000 emptyCache (by decide) (by decide)⟩

theorem allday_anchor_iff (a b c : Int) :
    (floorDay a ≤ floorDay b + 43200000 ∧
     floorDay b + 43200000 ≤ floorDay c + (MS_PER_DAY - 1)) ↔
    (dayIndex a ≤ dayIndex b ∧ dayIndex b ≤ dayIndex c) := by
  unfold floorDay dayIndex MS_PER_DAY
  omega

theorem matchesDay_iff (z : Tz) (date : Int) (ev : CalendarEvent) :
    (matchesDay z date ev = true) ↔
      ((ev.allDay = true →
         (dayIndex ev.start ≤ dayIndex date ∧ dayIndex date ≤ dayIndex ev.end_)) ∧
       (ev.allDay = false →
         (jsGetDate (toTimeZone ev.start z) = jsGetDate (toTimeZone date z) ∧
          jsGetMonth (toTimeZone ev.start z) = jsGetMonth (toTimeZone date z) ∧
          jsGetFullYear (toTimeZone ev.start z) = jsGetFullYear (toTimeZone date z)))) := by
  cases hd : ev.allDay with
  | true =>
    simp only [matchesDay, hd, if_true, decide_eq_true_eq, Bool.true_eq_false,
      false_implies, and_true, forall_const]
    exact allday_anchor_iff ev.start date ev.end_
  | false =>
    simp only [matchesDay, hd, Bool.false_eq_true, if_false, decide_eq_true_eq,
      false_implies, true_and, forall_const]

/-- C5 amended: `getEventsForDate` fetches over the resolved zone's day
bounds and keeps exactly the fetched events matching the day, where a
timed event matches through equality of the zoned local year, month and
day, but an all-day event matches through the noon-anchor rule, which is
inclusive containment of the target's system-zone day in
[day(start), day(end)] — the event's end *date* is included, not excluded
as a half-open [start, end) reading would have it. -/
theorem getEventsForDate_characterization (cfg : Config) (world : World)
    (now : Int) (registry : List CalendarSource) (date : Int) (cache : Cache)
    (ev : CalendarEvent) :
    ev ∈ (getEventsForDate cfg world now registry date cache).1 ↔
      (ev ∈ (fetchCalendarEvents cfg world now registry
          (getDayBoundsInTimezone date cfg.userTz).1
          (getDayBoundsInTimezone date cfg.userTz).2 cache).1 ∧
       (ev.allDay = true →
         (dayIndex ev.start ≤ dayIndex date ∧ dayIndex date ≤ dayIndex ev.end_)) ∧
       (ev.allDay = false →
         (jsGetDate (toTimeZone ev.start cfg.userTz) = jsGetDate (toTimeZone date cfg.userTz) ∧
          jsGetMonth (toTimeZone ev.start cfg.userTz) = jsGetMonth (toTimeZone date cfg.userTz) ∧
          jsGetFullYear (toTimeZone ev.start cfg.userTz) =
            jsGetFullYear (toTimeZone date cfg.userTz)))) := by
  simp only [getEventsForDate, getUserTimezone]
  rw [List.mem_filter, matchesDay_iff]

/-- C5 fails as stated: a one-day all-day event (DTSTART on one day,
exclusive DTEND on the next) is kept by `getEventsForDate` for the end
date itself, although the half-open [start, end) local-day containment
stated by the claim excludes that date. -/
theorem allday_end_date_counterexample :
    (mkSingleEvent src5 vAllDay) ∈
      (getEventsForDate cfgNone world5 0 [src5] 129600000 emptyCache).1 ∧
    specAllDayMatch utcTz 129600000 (mkSingleEvent src5 vAllDay) = false := by
  decide
